import Mathlib

/-!
Shallow embedding of the Student Grade Management System
(src/Student-Grade-Management-System.py).

Conventions of the embedding:
* Python floats are idealised as rationals. All marks arithmetic in the
  program is exact on the inputs the spec discusses, so no rounding model
  is needed.
* Python dicts are modelled as association lists with Python assignment
  semantics: assignment to an existing key updates the entry in place,
  assignment to a fresh key appends; deletion removes the entry; lookup
  returns the first (unique, for real dicts) match. Iteration order of a
  dict is its insertion order, which the list order represents.
* Python str.upper and str.lower are modelled on ASCII letters; the
  programs data (roll numbers, names) is ASCII in every documented use.
* Python float(x) and int(x) conversions are modelled by pyFloat? and
  pyInt? returning none where Python raises; the string parsers cover
  decimal literals with optional sign and fraction (exponents, inf and
  nan spellings are not modelled; no claim exercises them).
* Functions that can raise are embedded in Except String, the error text
  naming the Python exception class raised.
* File system effects are modelled by FileState: the backing document is
  absent, present but unparseable by json.load, or parsed to a JsonVal.
  The write-back of the repaired roster inside load and the file write in
  save always target the serialised form produced by StudentManager.save.
-/

/-- JSON values as produced by json.load, also standing in for the Python
values the program manipulates. -/
inductive JsonVal where
  | jnull
  | jbool (b : Bool)
  | jnum (q : Rat)
  | jstr (s : String)
  | jarr (items : List JsonVal)
  | jobj (fields : List (String × JsonVal))

/-- Uppercase one character, modelling Python str.upper on ASCII. -/
def charUpper (c : Char) : Char :=
  if 97 ≤ c.toNat ∧ c.toNat ≤ 122 then Char.ofNat (c.toNat - 32) else c

/-- Lowercase one character, modelling Python str.lower on ASCII. -/
def charLower (c : Char) : Char :=
  if 65 ≤ c.toNat ∧ c.toNat ≤ 90 then Char.ofNat (c.toNat + 32) else c

/-- Models Python str.upper (ASCII letters). -/
def pyUpper (s : String) : String := ⟨s.data.map charUpper⟩

/-- Models Python str.lower (ASCII letters). -/
def pyLower (s : String) : String := ⟨s.data.map charLower⟩

/-- Strip leading and trailing whitespace, as Python int() and float() do
before parsing a string. -/
def pyStrip (l : List Char) : List Char :=
  ((l.dropWhile Char.isWhitespace).reverse.dropWhile Char.isWhitespace).reverse

/-- Numeric value of a digit string. -/
def digitsVal (l : List Char) : Nat :=
  l.foldl (fun a c => a * 10 + (c.toNat - 48)) 0

/-- Shared body of the string-to-float parser: an optional integer part
and an optional fractional part around a dot, at least one digit total. -/
def floatBody (sign : Rat) (body : List Char) : Option Rat :=
  let ip := body.takeWhile (fun c => c ≠ '.')
  let rest := body.dropWhile (fun c => c ≠ '.')
  match rest with
  | [] =>
    if ip ≠ [] ∧ ip.all Char.isDigit then some (sign * (digitsVal ip : Rat))
    else none
  | _ :: frac =>
    if (ip ++ frac) ≠ [] ∧ ip.all Char.isDigit ∧ frac.all Char.isDigit then
      some (sign * ((digitsVal ip : Rat) + (digitsVal frac : Rat) / (10 ^ frac.length : Rat)))
    else none

/-- Models Python float(s) on a string: strip, optional sign, decimal
literal; none where Python raises ValueError. -/
def strToFloat? (s : String) : Option Rat :=
  match pyStrip s.data with
  | '+' :: t => floatBody 1 t
  | '-' :: t => floatBody (-1) t
  | t => floatBody 1 t

/-- Models Python float(x) on an arbitrary value: numbers and booleans
convert, strings parse, everything else raises (none). -/
def pyFloat? : JsonVal → Option Rat
  | .jnum q => some q
  | .jstr s => strToFloat? s
  | .jbool b => some (if b then 1 else 0)
  | _ => none

/-- Models Python int(s) on a string: strip, optional sign, digits; none
where Python raises ValueError. -/
def pyInt? (s : String) : Option Int :=
  match pyStrip s.data with
  | '+' :: t => if t ≠ [] ∧ t.all Char.isDigit then some (digitsVal t : Int) else none
  | '-' :: t => if t ≠ [] ∧ t.all Char.isDigit then some (-(digitsVal t : Int)) else none
  | t => if t ≠ [] ∧ t.all Char.isDigit then some (digitsVal t : Int) else none

/-- Models Python str(x). Exact on strings, integral numbers, booleans and
None; the rendering of non-integral numbers and containers is a placeholder
approximation (no claim and no documented input exercises those cases). -/
def pyStr : JsonVal → String
  | .jstr s => s
  | .jnum q => if q.den = 1 then toString q.num else toString q.num ++ "/" ++ toString q.den
  | .jbool b => if b then "True" else "False"
  | .jnull => "None"
  | _ => "<container>"

/-- Canonical in-memory student record: the dict literal
with exactly the fields name and marks built by load and add_update. -/
structure Student where
  name : String
  marks : Rat
deriving DecidableEq, Repr

/-- The in-memory mapping self.students, roll to record, in dict
insertion order. -/
abbrev Roster := List (String × Student)

/-- Python dict lookup d.get(k) / d[k] as an Option. -/
def dictGet? {α : Type} : List (String × α) → String → Option α
  | [], _ => none
  | (k, v) :: t, key => if k = key then some v else dictGet? t key

/-- Python dict assignment d[k] = v: update in place if the key is
present, append otherwise. -/
def dictSet {α : Type} : List (String × α) → String → α → List (String × α)
  | [], k, v => [(k, v)]
  | (k1, v1) :: t, k, v =>
    if k1 = k then (k, v) :: t else (k1, v1) :: dictSet t k v

/-- Python dict deletion del d[k]: drop the (unique) entry with the key. -/
def dictDel {α : Type} : List (String × α) → String → List (String × α)
  | [], _ => []
  | (k1, v1) :: t, k => if k1 = k then t else (k1, v1) :: dictDel t k

/-- State of the backing document as load observes it. -/
inductive FileState where
  | absent
  | unparseable
  | parsed (v : JsonVal)

/-- Repair of a single raw entry inside StudentManager.load: an object
shape takes name (default UNKNOWN) and marks coerced to float (default
0.0 on failure); any other shape is a legacy bare marks value with name
UNKNOWN. Key and name are uppercased. -/
def fixEntry : String × JsonVal → String × Student
  | (roll, .jobj fields) =>
    let nameV := (dictGet? fields "name").getD (.jstr "UNKNOWN")
    let marksV := (dictGet? fields "marks").getD (.jnum 0)
    (pyUpper roll, ⟨pyUpper (pyStr nameV), (pyFloat? marksV).getD 0⟩)
  | (roll, v) => (pyUpper roll, ⟨"UNKNOWN", (pyFloat? v).getD 0⟩)

/-- StudentManager.load: absent file and json.load failure both give the
empty roster with no error; a parsed JSON object is repaired entry by
entry into the fixed dict; a parsed non-object reaches raw.items()
outside the try block, raising AttributeError to the caller. -/
def StudentManager.load : FileState → Except String Roster
  | .absent => .ok []
  | .unparseable => .ok []
  | .parsed (.jobj items) =>
    .ok (items.foldl (fun fixed kv => dictSet fixed (fixEntry kv).1 (fixEntry kv).2) [])
  | .parsed _ => .error "AttributeError"

/-- StudentManager.save: the serialised document json.dump writes, one
JSON object per record with exactly the fields name and marks. -/
def StudentManager.save (students : Roster) : List (String × JsonVal) :=
  students.map (fun p => (p.1, JsonVal.jobj [("name", .jstr p.2.name), ("marks", .jnum p.2.marks)]))

/-- StudentManager.add_update: store the uppercased record at the
uppercased roll (then save, a file effect outside the mapping). -/
def StudentManager.add_update (students : Roster) (roll name : String) (marks : Rat) : Roster :=
  dictSet students (pyUpper roll) ⟨pyUpper name, marks⟩

/-- StudentManager.delete: uppercase the roll; if present remove the
entry and save (flag true), otherwise do nothing (flag false). -/
def StudentManager.delete (students : Roster) (roll : String) : Roster × Bool :=
  if (dictGet? students (pyUpper roll)).isSome then (dictDel students (pyUpper roll), true)
  else (students, false)

/-- Grade classifier calculate_grade on a numeric mark: descending
threshold checks, each band inclusive on its lower bound. -/
def calculate_grade (m : Rat) : String :=
  if 90 ≤ m then "S"
  else if 80 ≤ m then "A"
  else if 70 ≤ m then "B"
  else if 60 ≤ m then "C"
  else if 50 ≤ m then "D"
  else if 40 ≤ m then "E"
  else "N"

/-- Grade classifier on an arbitrary value: the try float coercion at the
top of calculate_grade, defaulting to 0.0, then the numeric bands. -/
def calculate_grade_any (v : JsonVal) : String :=
  calculate_grade ((pyFloat? v).getD 0)

/-- Stable insertion of x into l under comparator c, walking past every y
with c y x = true. This is the pure core shared by the sort models. -/
def insortP {α : Type} (c : α → α → Bool) (x : α) : List α → List α
  | [] => [x]
  | y :: ys => if c y x then y :: insortP c x ys else x :: y :: ys

/-- Stable sort under comparator c, modelling Python sorted with a total
key: c a b answers whether the key of a is strictly before the key of b. -/
def sortP {α : Type} (c : α → α → Bool) : List α → List α
  | [] => []
  | x :: xs => insortP c x (sortP c xs)

/-- Stable insertion under a comparison that can raise (TypeError),
modelling list element comparison during Python sorted. -/
def insortE {α : Type} (lt : α → α → Except String Bool) (x : α) :
    List α → Except String (List α)
  | [] => .ok [x]
  | y :: ys =>
    match lt y x with
    | .error e => .error e
    | .ok true =>
      match insortE lt x ys with
      | .error e => .error e
      | .ok t => .ok (y :: t)
    | .ok false => .ok (x :: y :: ys)

/-- Stable sort under a comparison that can raise, modelling Python
sorted when key values may be incomparable across types. -/
def sortE {α : Type} (lt : α → α → Except String Bool) :
    List α → Except String (List α)
  | [] => .ok []
  | x :: xs =>
    match sortE lt xs with
    | .error e => .error e
    | .ok t => insortE lt x t

/-- Sort key of the Roll mode: int(r) when that parses, else the roll
string itself. -/
inductive RollKey where
  | i (n : Int)
  | s (x : String)

/-- The roll_key closure inside StudentManager.sorted. -/
def roll_key (r : String) : RollKey :=
  match pyInt? r with
  | some n => .i n
  | none => .s r

/-- Python code-point comparison of strings, as lists of characters. -/
def strLtb : List Char → List Char → Bool
  | [], [] => false
  | [], _ :: _ => true
  | _ :: _, [] => false
  | a :: as, b :: bs =>
    if a.toNat < b.toNat then true
    else if b.toNat < a.toNat then false
    else strLtb as bs

/-- Python string less-than. -/
def pyStrLt (a b : String) : Bool := strLtb a.data b.data

/-- Comparison of two roll keys by the Python less-than operator: ints
compare numerically, strings lexicographically, and a mixed comparison
raises TypeError. -/
def pyLt : RollKey → RollKey → Except String Bool
  | .i a, .i b => .ok (decide (a < b))
  | .s a, .s b => .ok (pyStrLt a b)
  | _, _ => .error "TypeError"

/-- StudentManager.sorted: Name mode sorts ascending by lowercased name,
Marks mode descending by marks (reverse=True), the default Roll mode
sorts by roll_key under Python comparison, which can raise TypeError. -/
def StudentManager.sorted (students : Roster) (mode : String) : Except String Roster :=
  if mode = "Name" then
    .ok (sortP (fun a b => pyStrLt (pyLower a.2.name) (pyLower b.2.name)) students)
  else if mode = "Marks" then
    .ok (sortP (fun a b => decide (b.2.marks < a.2.marks)) students)
  else
    sortE (fun a b => pyLt (roll_key a.1) (roll_key b.1)) students

/-- One CSV data row written by export_csv. -/
structure Row where
  rank : Nat
  roll : String
  name : String
  marks : Rat
  grade : String
deriving DecidableEq, Repr

/-- The enumerate(ranked, 1) loop body of export_csv. -/
def rankRows : Nat → List (String × Student) → List Row
  | _, [] => []
  | i, (r, s) :: t => ⟨i, r, s.name, s.marks, calculate_grade s.marks⟩ :: rankRows (i + 1) t

/-- StudentManager.export_csv: the data rows written after the header,
records sorted descending by marks (stable) and ranked positionally
from 1. -/
def StudentManager.export_csv (students : Roster) : List Row :=
  rankRows 1 (sortP (fun a b => decide (b.2.marks < a.2.marks)) students)

/-- Maximum of a marks list via the fold Python max performs; the empty
case is unreachable behind the emptiness guard in stats. -/
def pyMax : List Rat → Rat
  | [] => 0
  | h :: t => t.foldl max h

/-- Minimum of a marks list via the fold Python min performs. -/
def pyMin : List Rat → Rat
  | [] => 0
  | h :: t => t.foldl min h

/-- Result shape of StudentManager.stats. -/
structure Stats where
  total : Nat
  max : Rat
  min : Rat
  avg : Rat
deriving DecidableEq, Repr

/-- StudentManager.stats: all zero on an empty roster, otherwise count,
max, min and mean of the current marks. -/
def StudentManager.stats (students : Roster) : Stats :=
  if students.isEmpty then ⟨0, 0, 0, 0⟩
  else
    let marks := students.map (fun p => p.2.marks)
    ⟨marks.length, pyMax marks, pyMin marks, marks.sum / (marks.length : Rat)⟩

/-- Canonical well-formedness of the in-memory roster: every entry maps
an uppercase roll key to a record (exactly the fields name and marks, by
the Student type) whose name is uppercase. -/
abbrev Canonical (students : Roster) : Prop :=
  ∀ p ∈ students, pyUpper p.1 = p.1 ∧ pyUpper p.2.name = p.2.name

/-! Helper lemmas about uppercasing. -/

/-- Value of Char.ofNat on the image of a lowercase letter. -/
lemma toNat_charUpper_image (n : Nat) (h1 : 97 ≤ n) (h2 : n ≤ 122) :
    (Char.ofNat (n - 32)).toNat = n - 32 := by
  interval_cases n <;> rfl

/-- Uppercasing a character twice is the same as once. -/
lemma charUpper_idem (c : Char) : charUpper (charUpper c) = charUpper c := by
  unfold charUpper
  by_cases h : 97 ≤ c.toNat ∧ c.toNat ≤ 122
  · rw [if_pos h]
    have hv : (Char.ofNat (c.toNat - 32)).toNat = c.toNat - 32 :=
      toNat_charUpper_image c.toNat h.1 h.2
    rw [if_neg]
    rw [hv]
    omega
  · rw [if_neg h, if_neg h]

/-- Uppercasing a string twice is the same as once. -/
lemma pyUpper_idem (s : String) : pyUpper (pyUpper s) = pyUpper s := by
  unfold pyUpper
  cases s with
  | mk data =>
    simp only [List.map_map]
    congr 1
    exact List.map_congr_left (fun c _ => charUpper_idem c)

/-! Helper lemmas about the dict operations. -/

/-- Lookup after assignment at the same key. -/
lemma dictGet?_dictSet_self {α : Type} (d : List (String × α)) (k : String) (v : α) :
    dictGet? (dictSet d k v) k = some v := by
  induction d with
  | nil => simp [dictSet, dictGet?]
  | cons p t ih =>
    obtain ⟨k1, v1⟩ := p
    by_cases h : k1 = k
    · simp [dictSet, h, dictGet?]
    · simp [dictSet, h, dictGet?, ih]

/-- Lookup after assignment at a different key. -/
lemma dictGet?_dictSet_ne {α : Type} (d : List (String × α)) (k k2 : String) (v : α)
    (h : k2 ≠ k) : dictGet? (dictSet d k v) k2 = dictGet? d k2 := by
  have hk : k ≠ k2 := Ne.symm h
  induction d with
  | nil => simp [dictSet, dictGet?, hk]
  | cons p t ih =>
    obtain ⟨k1, v1⟩ := p
    by_cases h1 : k1 = k
    · subst h1
      simp [dictSet, dictGet?, hk]
    · simp [dictSet, h1, dictGet?, ih]

/-- Entries of an assignment result come from the dict or are the new pair. -/
lemma mem_dictSet {α : Type} {d : List (String × α)} {k : String} {v : α}
    {p : String × α} (hp : p ∈ dictSet d k v) : p ∈ d ∨ p = (k, v) := by
  induction d with
  | nil => simpa [dictSet] using hp
  | cons q t ih =>
    obtain ⟨k1, v1⟩ := q
    by_cases h : k1 = k
    · simp only [dictSet, if_pos h, List.mem_cons] at hp
      rcases hp with h1 | h1
      · right; exact h1
      · left; exact List.mem_cons_of_mem _ h1
    · simp only [dictSet, if_neg h, List.mem_cons] at hp
      rcases hp with h1 | h1
      · left; exact h1 ▸ List.mem_cons_self _ _
      · rcases ih h1 with h2 | h2
        · left; exact List.mem_cons_of_mem _ h2
        · right; exact h2

/-- Assignment with a key absent from the dict appends the pair. -/
lemma dictSet_of_forall_ne {α : Type} (d : List (String × α)) (k : String) (v : α)
    (h : ∀ q ∈ d, q.1 ≠ k) : dictSet d k v = d ++ [(k, v)] := by
  induction d with
  | nil => rfl
  | cons q t ih =>
    obtain ⟨k1, v1⟩ := q
    have hk : k1 ≠ k := h (k1, v1) (List.mem_cons_self _ _)
    simp only [dictSet, if_neg hk, List.cons_append, List.cons.injEq, true_and]
    exact ih (fun q hq => h q (List.mem_cons_of_mem _ hq))

/-- Deletion yields a sublist: no other entry is touched. -/
lemma dictDel_sublist {α : Type} (d : List (String × α)) (k : String) :
    (dictDel d k).Sublist d := by
  induction d with
  | nil => exact List.Sublist.refl _
  | cons q t ih =>
    obtain ⟨k1, v1⟩ := q
    by_cases h : k1 = k
    · simp only [dictDel, if_pos h]
      exact List.sublist_cons_self _ _
    · simpa [dictDel, h] using ih

/-- A successful lookup means the key occurs among the keys. -/
lemma mem_keys_of_dictGet? {α : Type} {d : List (String × α)} {k : String} {v : α}
    (h : dictGet? d k = some v) : k ∈ d.map Prod.fst := by
  induction d with
  | nil => simp [dictGet?] at h
  | cons q t ih =>
    obtain ⟨k1, v1⟩ := q
    by_cases h1 : k1 = k
    · simp [h1]
    · simp only [dictGet?, if_neg h1] at h
      simp only [List.map_cons, List.mem_cons]
      exact Or.inr (ih h)

/-- Lookup of the deleted key fails when keys are unique. -/
lemma dictGet?_dictDel_self {α : Type} (d : List (String × α)) (k : String)
    (hnd : (d.map Prod.fst).Nodup) : dictGet? (dictDel d k) k = none := by
  induction d with
  | nil => rfl
  | cons q t ih =>
    obtain ⟨k1, v1⟩ := q
    simp only [List.map_cons, List.nodup_cons] at hnd
    by_cases h : k1 = k
    · subst h
      simp only [dictDel, if_pos rfl]
      cases hg : dictGet? t k1 with
      | none => exact hg
      | some v => exact absurd (mem_keys_of_dictGet? hg) hnd.1
    · simp only [dictDel, if_neg h, dictGet?, if_neg h]
      exact ih hnd.2

/-- Lookup at another key is unchanged by deletion. -/
lemma dictGet?_dictDel_ne {α : Type} (d : List (String × α)) (k k2 : String)
    (h : k2 ≠ k) : dictGet? (dictDel d k) k2 = dictGet? d k2 := by
  induction d with
  | nil => rfl
  | cons q t ih =>
    obtain ⟨k1, v1⟩ := q
    by_cases h1 : k1 = k
    · subst h1
      simp [dictDel, dictGet?, Ne.symm h]
    · simp [dictDel, h1, dictGet?, ih]

/-! Helper lemmas about the stable sort models. -/

/-- Stable insertion permutes the inserted element onto the list. -/
lemma insortP_perm {α : Type} (c : α → α → Bool) (x : α) (l : List α) :
    (insortP c x l).Perm (x :: l) := by
  induction l with
  | nil => exact List.Perm.refl _
  | cons y ys ih =>
    by_cases h : c y x
    · simp only [insortP, if_pos h]
      exact (ih.cons y).trans (List.Perm.swap x y ys)
    · simp only [insortP, if_neg h]
      exact List.Perm.refl _

/-- The stable sort permutes its input. -/
lemma sortP_perm {α : Type} (c : α → α → Bool) (l : List α) :
    (sortP c l).Perm l := by
  induction l with
  | nil => exact List.Perm.refl _
  | cons x xs ih =>
    exact (insortP_perm c x (sortP c xs)).trans (ih.cons x)

/-- Membership in the stable sort result. -/
lemma mem_sortP {α : Type} {c : α → α → Bool} {l : List α} {y : α}
    (h : y ∈ sortP c l) : y ∈ l :=
  (sortP_perm c l).mem_iff.mp h

/-- Stable insertion preserves sortedness with respect to the relation
induced by the comparator, given asymmetry and transitivity of that
relation on the whole type. -/
lemma insortP_pairwise {α : Type} (c : α → α → Bool)
    (hasym : ∀ a b, c a b = true → c b a = false)
    (htrans : ∀ a b d, c b a = false → c d b = false → c d a = false)
    (x : α) (l : List α) (h : l.Pairwise (fun a b => c b a = false)) :
    (insortP c x l).Pairwise (fun a b => c b a = false) := by
  induction l with
  | nil => simp [insortP]
  | cons y ys ih =>
    rw [List.pairwise_cons] at h
    by_cases hc : c y x
    · simp only [insortP, if_pos hc, List.pairwise_cons]
      refine ⟨fun z hz => ?_, ih h.2⟩
      rcases List.mem_cons.mp ((insortP_perm c x ys).mem_iff.mp hz) with hz1 | hz1
      · rw [hz1]; exact hasym y x hc
      · exact h.1 z hz1
    · simp only [insortP, if_neg hc, List.pairwise_cons]
      have hcyx : c y x = false := by
        cases hcc : c y x with
        | false => rfl
        | true => exact absurd hcc hc
      refine ⟨fun z hz => ?_, h⟩
      rcases List.mem_cons.mp hz with hz1 | hz1
      · rw [hz1]; exact hcyx
      · exact htrans x y z hcyx (h.1 z hz1)

/-- The stable sort result is sorted with respect to the relation induced
by the comparator. -/
lemma sortP_pairwise {α : Type} (c : α → α → Bool)
    (hasym : ∀ a b, c a b = true → c b a = false)
    (htrans : ∀ a b d, c b a = false → c d b = false → c d a = false)
    (l : List α) : (sortP c l).Pairwise (fun a b => c b a = false) := by
  induction l with
  | nil => simp [sortP]
  | cons x xs ih => exact insortP_pairwise c hasym htrans x (sortP c xs) ih

/-- When every needed comparison answers without raising, the raising
insertion agrees with the pure stable insertion. -/
lemma insortE_ok {α : Type} (lt : α → α → Except String Bool) (c : α → α → Bool)
    (x : α) (l : List α) (h : ∀ y ∈ l, lt y x = .ok (c y x)) :
    insortE lt x l = .ok (insortP c x l) := by
  induction l with
  | nil => rfl
  | cons y ys ih =>
    have hy := h y (List.mem_cons_self _ _)
    cases hc : c y x with
    | true =>
      rw [hc] at hy
      simp only [insortE, hy, insortP, hc, if_pos]
      rw [ih (fun z hz => h z (List.mem_cons_of_mem _ hz))]
    | false =>
      rw [hc] at hy
      simp only [insortE, hy, insortP, hc]
      rfl

/-- When every pairwise comparison on the list answers without raising,
the raising sort agrees with the pure stable sort. -/
lemma sortE_ok {α : Type} (lt : α → α → Except String Bool) (c : α → α → Bool)
    (l : List α) (h : ∀ a ∈ l, ∀ b ∈ l, lt a b = .ok (c a b)) :
    sortE lt l = .ok (sortP c l) := by
  induction l with
  | nil => rfl
  | cons x xs ih =>
    have hxs : sortE lt xs = .ok (sortP c xs) :=
      ih (fun a ha b hb => h a (List.mem_cons_of_mem _ ha) b (List.mem_cons_of_mem _ hb))
    simp only [sortE, hxs, sortP]
    exact insortE_ok lt c x (sortP c xs)
      (fun y hy => h y (List.mem_cons_of_mem _ (mem_sortP hy)) x (List.mem_cons_self _ _))

/-! Helper lemmas about Python string comparison. -/

/-- Python string comparison is asymmetric. -/
lemma strLtb_asymm (a : List Char) : ∀ (b : List Char),
    strLtb a b = true → strLtb b a = false := by
  induction a with
  | nil =>
    intro b _
    cases b with
    | nil => rfl
    | cons y ys => rfl
  | cons x xs ih =>
    intro b hab
    cases b with
    | nil => simp [strLtb] at hab
    | cons y ys =>
      simp only [strLtb] at hab ⊢
      by_cases h1 : x.toNat < y.toNat
      · rw [if_neg (by omega), if_pos h1]
      · rw [if_neg h1] at hab
        by_cases h2 : y.toNat < x.toNat
        · rw [if_pos h2] at hab
          exact Bool.noConfusion hab
        · rw [if_neg h2] at hab
          rw [if_neg h2, if_neg h1]
          exact ih ys hab

/-- Transitivity of the complement of Python string comparison. -/
lemma strLtb_notLt_trans (a : List Char) : ∀ (b c : List Char),
    strLtb b a = false → strLtb c b = false → strLtb c a = false := by
  induction a with
  | nil =>
    intro b c _ _
    cases c with
    | nil => rfl
    | cons z zs => rfl
  | cons x xs ih =>
    intro b c h1 h2
    cases b with
    | nil => simp [strLtb] at h1
    | cons y ys =>
      cases c with
      | nil => simp [strLtb] at h2
      | cons z zs =>
        simp only [strLtb] at h1 h2 ⊢
        by_cases hyx : y.toNat < x.toNat
        · rw [if_pos hyx] at h1; exact Bool.noConfusion h1
        · rw [if_neg hyx] at h1
          by_cases hzy : z.toNat < y.toNat
          · rw [if_pos hzy] at h2; exact Bool.noConfusion h2
          · rw [if_neg hzy] at h2
            by_cases hzx : z.toNat < x.toNat
            · omega
            · rw [if_neg hzx]
              by_cases hxz : x.toNat < z.toNat
              · rw [if_pos hxz]
              · have hxy : ¬ x.toNat < y.toNat := by omega
                have hyz : ¬ y.toNat < z.toNat := by omega
                rw [if_neg hxy] at h1
                rw [if_neg hyz] at h2
                rw [if_neg hxz]
                exact ih ys zs h1 h2

/-! Helper lemmas about the max and min folds in stats. -/

/-- The max fold yields the seed or a list element. -/
lemma foldl_max_mem (t : List Rat) : ∀ (a : Rat),
    t.foldl max a = a ∨ t.foldl max a ∈ t := by
  induction t with
  | nil => intro a; left; rfl
  | cons b u ih =>
    intro a
    rcases ih (max a b) with h | h
    · rcases max_choice a b with h1 | h1
      · left; rw [List.foldl_cons, h, h1]
      · right; rw [List.foldl_cons, h, h1]; exact List.mem_cons_self _ _
    · right; exact List.mem_cons_of_mem _ h

/-- The seed bounds the max fold from below. -/
lemma le_foldl_max (t : List Rat) : ∀ (a : Rat), a ≤ t.foldl max a := by
  induction t with
  | nil => intro a; exact le_refl a
  | cons b u ih =>
    intro a
    exact le_trans (le_max_left a b) (ih (max a b))

/-- Every list element bounds the max fold from below. -/
lemma mem_le_foldl_max (t : List Rat) : ∀ (a x : Rat), x ∈ t → x ≤ t.foldl max a := by
  induction t with
  | nil => intro a x hx; simp at hx
  | cons b u ih =>
    intro a x hx
    rcases List.mem_cons.mp hx with h | h
    · rw [List.foldl_cons, h]
      exact le_trans (le_max_right a b) (le_foldl_max u (max a b))
    · exact ih (max a b) x h

/-- The min fold yields the seed or a list element. -/
lemma foldl_min_mem (t : List Rat) : ∀ (a : Rat),
    t.foldl min a = a ∨ t.foldl min a ∈ t := by
  induction t with
  | nil => intro a; left; rfl
  | cons b u ih =>
    intro a
    rcases ih (min a b) with h | h
    · rcases min_choice a b with h1 | h1
      · left; rw [List.foldl_cons, h, h1]
      · right; rw [List.foldl_cons, h, h1]; exact List.mem_cons_self _ _
    · right; exact List.mem_cons_of_mem _ h

/-- The seed bounds the min fold from above. -/
lemma foldl_min_le (t : List Rat) : ∀ (a : Rat), t.foldl min a ≤ a := by
  induction t with
  | nil => intro a; exact le_refl a
  | cons b u ih =>
    intro a
    exact le_trans (ih (min a b)) (min_le_left a b)

/-- The min fold bounds every list element from below. -/
lemma foldl_min_le_mem (t : List Rat) : ∀ (a x : Rat), x ∈ t → t.foldl min a ≤ x := by
  induction t with
  | nil => intro a x hx; simp at hx
  | cons b u ih =>
    intro a x hx
    rcases List.mem_cons.mp hx with h | h
    · rw [List.foldl_cons, h]
      exact le_trans (foldl_min_le u (min a b)) (min_le_right a b)
    · exact ih (min a b) x h

/-! Helper lemmas about the export rows. -/

/-- The ranks of the rows starting at i are the consecutive integers. -/
lemma rankRows_map_rank (l : List (String × Student)) : ∀ (i : Nat),
    (rankRows i l).map Row.rank = List.range' i l.length := by
  induction l with
  | nil => intro i; rfl
  | cons p t ih =>
    intro i
    obtain ⟨r, s⟩ := p
    simp only [rankRows, List.map_cons, List.length_cons, List.range'_succ]
    rw [ih (i + 1)]

/-- Projecting each row back to its roster entry recovers the list. -/
lemma rankRows_map_entry (l : List (String × Student)) : ∀ (i : Nat),
    (rankRows i l).map (fun w => (w.roll, Student.mk w.name w.marks)) = l := by
  induction l with
  | nil => intro i; rfl
  | cons p t ih =>
    intro i
    obtain ⟨r, s⟩ := p
    simp only [rankRows, List.map_cons, List.cons.injEq]
    exact ⟨trivial, ih (i + 1)⟩

/-- Each row carries the grade classified from its own marks. -/
lemma rankRows_map_grade (l : List (String × Student)) : ∀ (i : Nat),
    (rankRows i l).map Row.grade = (rankRows i l).map (fun w => calculate_grade w.marks) := by
  induction l with
  | nil => intro i; rfl
  | cons p t ih =>
    intro i
    obtain ⟨r, s⟩ := p
    simp only [rankRows, List.map_cons, List.cons.injEq]
    exact ⟨trivial, ih (i + 1)⟩

/-- The marks column of the rows is the marks column of the entry list. -/
lemma rankRows_map_marks (l : List (String × Student)) : ∀ (i : Nat),
    (rankRows i l).map Row.marks = l.map (fun p => p.2.marks) := by
  induction l with
  | nil => intro i; rfl
  | cons p t ih =>
    intro i
    obtain ⟨r, s⟩ := p
    simp only [rankRows, List.map_cons, List.cons.injEq]
    exact ⟨trivial, ih (i + 1)⟩

/-! Helper lemmas about the repairing fold in load. -/

/-- Folding dict assignments over pairwise-fresh keys appends them. -/
lemma foldl_dictSet_append {α : Type} (l : List (String × α)) : ∀ (acc : List (String × α)),
    (∀ p ∈ l, ∀ q ∈ acc, p.1 ≠ q.1) → (l.map Prod.fst).Nodup →
    l.foldl (fun d p => dictSet d p.1 p.2) acc = acc ++ l := by
  induction l with
  | nil => intro acc _ _; simp
  | cons p t ih =>
    intro acc hd hn
    simp only [List.map_cons, List.nodup_cons] at hn
    rw [List.foldl_cons]
    rw [dictSet_of_forall_ne acc p.1 p.2
      (fun q hq => Ne.symm (hd p (List.mem_cons_self _ _) q hq))]
    rw [ih (acc ++ [p]) ?_ hn.2]
    · simp
    · intro r hr q hq
      rcases List.mem_append.mp hq with h1 | h1
      · exact hd r (List.mem_cons_of_mem _ hr) q h1
      · rw [List.mem_singleton.mp h1]
        intro he
        exact hn.1 (he ▸ List.mem_map_of_mem Prod.fst hr)

/-- Entries produced by the repairing fold in load come from the
accumulator or are repaired raw entries. -/
lemma mem_foldl_fixEntry (l : List (String × JsonVal)) :
    ∀ (acc : List (String × Student)) (p : String × Student),
    p ∈ l.foldl (fun fixed kv => dictSet fixed (fixEntry kv).1 (fixEntry kv).2) acc →
    p ∈ acc ∨ ∃ kv ∈ l, p = fixEntry kv := by
  induction l with
  | nil =>
    intro acc p hp
    exact Or.inl hp
  | cons q t ih =>
    intro acc p hp
    rw [List.foldl_cons] at hp
    rcases ih _ p hp with h1 | h1
    · rcases mem_dictSet h1 with h2 | h2
      · exact Or.inl h2
      · right
        refine ⟨q, List.mem_cons_self _ _, ?_⟩
        rw [h2]
    · rcases h1 with ⟨kv, hkv, he⟩
      exact Or.inr ⟨kv, List.mem_cons_of_mem _ hkv, he⟩

/-! The claims. -/

/-- C1: the grade classifier is total on numbers and returns S for marks
at least 90, A on [80,90), B on [70,80), C on [60,70), D on [50,60), E on
[40,50) and N below 40, every band inclusive on its lower bound; in
particular the six boundary examples of the spec hold. -/
theorem calculate_grade_bands (m : Rat) :
    (90 ≤ m → calculate_grade m = "S") ∧
    (80 ≤ m → m < 90 → calculate_grade m = "A") ∧
    (70 ≤ m → m < 80 → calculate_grade m = "B") ∧
    (60 ≤ m → m < 70 → calculate_grade m = "C") ∧
    (50 ≤ m → m < 60 → calculate_grade m = "D") ∧
    (40 ≤ m → m < 50 → calculate_grade m = "E") ∧
    (m < 40 → calculate_grade m = "N") ∧
    calculate_grade 90 = "S" ∧ calculate_grade (89999 / 1000) = "A" ∧
    calculate_grade 40 = "E" ∧ calculate_grade (39999 / 1000) = "N" ∧
    calculate_grade 0 = "N" ∧ calculate_grade 100 = "S" := by
  have hS : ∀ x : Rat, 90 ≤ x → calculate_grade x = "S" := by
    intro x h
    unfold calculate_grade
    rw [if_pos h]
  have hA : ∀ x : Rat, 80 ≤ x → x < 90 → calculate_grade x = "A" := by
    intro x h1 h2
    unfold calculate_grade
    rw [if_neg (by linarith), if_pos h1]
  have hB : ∀ x : Rat, 70 ≤ x → x < 80 → calculate_grade x = "B" := by
    intro x h1 h2
    unfold calculate_grade
    rw [if_neg (by linarith), if_neg (by linarith), if_pos h1]
  have hC : ∀ x : Rat, 60 ≤ x → x < 70 → calculate_grade x = "C" := by
    intro x h1 h2
    unfold calculate_grade
    rw [if_neg (by linarith), if_neg (by linarith), if_neg (by linarith), if_pos h1]
  have hD : ∀ x : Rat, 50 ≤ x → x < 60 → calculate_grade x = "D" := by
    intro x h1 h2
    unfold calculate_grade
    rw [if_neg (by linarith), if_neg (by linarith), if_neg (by linarith),
      if_neg (by linarith), if_pos h1]
  have hE : ∀ x : Rat, 40 ≤ x → x < 50 → calculate_grade x = "E" := by
    intro x h1 h2
    unfold calculate_grade
    rw [if_neg (by linarith), if_neg (by linarith), if_neg (by linarith),
      if_neg (by linarith), if_neg (by linarith), if_pos h1]
  have hN : ∀ x : Rat, x < 40 → calculate_grade x = "N" := by
    intro x h1
    unfold calculate_grade
    rw [if_neg (by linarith), if_neg (by linarith), if_neg (by linarith),
      if_neg (by linarith), if_neg (by linarith), if_neg (by linarith)]
  exact ⟨hS m, hA m, hB m, hC m, hD m, hE m, hN m,
    hS 90 (by norm_num), hA (89999 / 1000) (by norm_num) (by norm_num),
    hE 40 (by norm_num) (by norm_num), hN (39999 / 1000) (by norm_num),
    hN 0 (by norm_num), hS 100 (by norm_num)⟩

/-- Witness for C1: one concrete mark inside each band. -/
theorem calculate_grade_bands_witness :
    calculate_grade 95 = "S" ∧ calculate_grade 85 = "A" ∧ calculate_grade 75 = "B" ∧
    calculate_grade 65 = "C" ∧ calculate_grade 55 = "D" ∧ calculate_grade 45 = "E" ∧
    calculate_grade 35 = "N" :=
  ⟨(calculate_grade_bands 95).1 (by norm_num),
   (calculate_grade_bands 85).2.1 (by norm_num) (by norm_num),
   (calculate_grade_bands 75).2.2.1 (by norm_num) (by norm_num),
   (calculate_grade_bands 65).2.2.2.1 (by norm_num) (by norm_num),
   (calculate_grade_bands 55).2.2.2.2.1 (by norm_num) (by norm_num),
   (calculate_grade_bands 45).2.2.2.2.2.1 (by norm_num) (by norm_num),
   (calculate_grade_bands 35).2.2.2.2.2.2.1 (by norm_num)⟩

/-- C2: load repairs every successfully parsed entry to canonical form:
the two concrete documents of the spec, and in general a singleton
object-shaped entry keeps its name (uppercased) and coerces its marks
with default 0.0, an object without the fields gets name UNKNOWN and
marks 0.0, and a bare scalar entry gets name UNKNOWN and its own value
coerced; keys are uppercased. -/
theorem load_repairs_entries :
    (StudentManager.load (.parsed (.jobj [("1", .jnum 55)])) =
      .ok [("1", ⟨"UNKNOWN", 55⟩)]) ∧
    (StudentManager.load (.parsed (.jobj
        [("2", .jobj [("name", .jstr "bob"), ("marks", .jstr "not-a-number")])])) =
      .ok [("2", ⟨"BOB", 0⟩)]) ∧
    (∀ (k n : String) (fields : List (String × JsonVal)) (mv : JsonVal),
      dictGet? fields "name" = some (.jstr n) → dictGet? fields "marks" = some mv →
      StudentManager.load (.parsed (.jobj [(k, .jobj fields)])) =
        .ok [(pyUpper k, ⟨pyUpper n, (pyFloat? mv).getD 0⟩)]) ∧
    (∀ (k : String) (fields : List (String × JsonVal)),
      dictGet? fields "name" = none → dictGet? fields "marks" = none →
      StudentManager.load (.parsed (.jobj [(k, .jobj fields)])) =
        .ok [(pyUpper k, ⟨"UNKNOWN", 0⟩)]) ∧
    (∀ (k : String) (v : JsonVal), (∀ fields, v ≠ .jobj fields) →
      StudentManager.load (.parsed (.jobj [(k, v)])) =
        .ok [(pyUpper k, ⟨"UNKNOWN", (pyFloat? v).getD 0⟩)]) := by
  refine ⟨rfl, rfl, ?_, ?_, ?_⟩
  · intro k n fields mv hn hm
    have h1 : StudentManager.load (.parsed (.jobj [(k, .jobj fields)])) =
        .ok [fixEntry (k, .jobj fields)] := rfl
    rw [h1]
    have h2 : fixEntry (k, .jobj fields) =
        (pyUpper k, ⟨pyUpper (pyStr ((dictGet? fields "name").getD (.jstr "UNKNOWN"))),
          (pyFloat? ((dictGet? fields "marks").getD (.jnum 0))).getD 0⟩) := rfl
    rw [h2, hn, hm]
    rfl
  · intro k fields hn hm
    have h1 : StudentManager.load (.parsed (.jobj [(k, .jobj fields)])) =
        .ok [fixEntry (k, .jobj fields)] := rfl
    rw [h1]
    have h2 : fixEntry (k, .jobj fields) =
        (pyUpper k, ⟨pyUpper (pyStr ((dictGet? fields "name").getD (.jstr "UNKNOWN"))),
          (pyFloat? ((dictGet? fields "marks").getD (.jnum 0))).getD 0⟩) := rfl
    rw [h2, hn, hm]
    rfl
  · intro k v hv
    cases v with
    | jobj fields => exact absurd rfl (hv fields)
    | jnull => rfl
    | jbool b => rfl
    | jnum q => rfl
    | jstr s => rfl
    | jarr items => rfl

/-- Witness for C2: the general clauses instantiated at concrete
documents. -/
theorem load_repairs_entries_witness :
    StudentManager.load (.parsed (.jobj
        [("3", .jobj [("name", .jstr "eve"), ("marks", .jnum 41)])])) =
      .ok [(pyUpper "3", ⟨pyUpper "eve", (pyFloat? (.jnum 41)).getD 0⟩)] ∧
    StudentManager.load (.parsed (.jobj [("4", .jobj [])])) =
      .ok [(pyUpper "4", ⟨"UNKNOWN", 0⟩)] ∧
    StudentManager.load (.parsed (.jobj [("5", .jnull)])) =
      .ok [(pyUpper "5", ⟨"UNKNOWN", (pyFloat? .jnull).getD 0⟩)] :=
  ⟨load_repairs_entries.2.2.1 "3" "eve" [("name", .jstr "eve"), ("marks", .jnum 41)]
      (.jnum 41) rfl rfl,
   load_repairs_entries.2.2.2.1 "4" [] rfl rfl,
   load_repairs_entries.2.2.2.2 "5" .jnull (fun _ h => JsonVal.noConfusion h)⟩

/-- C3 (code divergence): on a backing document that holds valid JSON
whose top level is not an object, json.load succeeds, so the except
around it does not fire, and raw.items() raises AttributeError to the
caller instead of yielding an empty roster; the absent and unparseable
cases do degrade to the empty roster. -/
theorem load_raises_on_non_mapping :
    StudentManager.load (FileState.parsed (JsonVal.jarr [])) =
      Except.error "AttributeError" ∧
    StudentManager.load FileState.absent = Except.ok [] ∧
    StudentManager.load FileState.unparseable = Except.ok [] :=
  ⟨rfl, rfl, rfl⟩

/-- C4 counterexample: a roster holding one purely numeric and one
non-numeric roll makes sorted with mode Roll compare an int key with a
str key, which raises TypeError instead of completing. -/
theorem sorted_roll_mixed_raises :
    StudentManager.sorted [("1", ⟨"A", 50⟩), ("X", ⟨"B", 60⟩)] "Roll" =
      Except.error "TypeError" := rfl

/-- C4 amended: when the roll keys are homogeneous, sorted with mode Roll
completes and orders them: all purely numeric rolls ascend by integer
value, all non-numeric rolls ascend lexicographically; the mixed case
raises TypeError (see the counterexample). -/
theorem sorted_roll_homogeneous (students : Roster) :
    ((∀ p ∈ students, (pyInt? p.1).isSome) →
      ∃ l, StudentManager.sorted students "Roll" = .ok l ∧ l.Perm students ∧
        l.Pairwise (fun a b => (pyInt? a.1).getD 0 ≤ (pyInt? b.1).getD 0)) ∧
    ((∀ p ∈ students, pyInt? p.1 = none) →
      ∃ l, StudentManager.sorted students "Roll" = .ok l ∧ l.Perm students ∧
        l.Pairwise (fun a b => pyStrLt b.1 a.1 = false)) := by
  have hmode : StudentManager.sorted students "Roll" =
      sortE (fun a b => pyLt (roll_key a.1) (roll_key b.1)) students := rfl
  constructor
  · intro hint
    refine ⟨sortP (fun a b => decide ((pyInt? a.1).getD 0 < (pyInt? b.1).getD 0)) students,
      ?_, sortP_perm _ students, ?_⟩
    · rw [hmode]
      apply sortE_ok
      intro a ha b hb
      obtain ⟨na, hna⟩ := Option.isSome_iff_exists.mp (hint a ha)
      obtain ⟨nb, hnb⟩ := Option.isSome_iff_exists.mp (hint b hb)
      have hka : roll_key a.1 = .i na := by unfold roll_key; rw [hna]
      have hkb : roll_key b.1 = .i nb := by unfold roll_key; rw [hnb]
      rw [hka, hkb]
      show Except.ok (decide (na < nb)) =
        Except.ok (decide ((pyInt? a.1).getD 0 < (pyInt? b.1).getD 0))
      rw [hna, hnb]
      rfl
    · have hasym : ∀ a b : String × Student,
          decide ((pyInt? a.1).getD 0 < (pyInt? b.1).getD 0) = true →
          decide ((pyInt? b.1).getD 0 < (pyInt? a.1).getD 0) = false := by
        intro a b h
        simp only [decide_eq_true_eq] at h
        simp only [decide_eq_false_iff_not, not_lt]
        omega
      have htrans : ∀ a b d : String × Student,
          decide ((pyInt? b.1).getD 0 < (pyInt? a.1).getD 0) = false →
          decide ((pyInt? d.1).getD 0 < (pyInt? b.1).getD 0) = false →
          decide ((pyInt? d.1).getD 0 < (pyInt? a.1).getD 0) = false := by
        intro a b d h1 h2
        simp only [decide_eq_false_iff_not, not_lt] at h1 h2 ⊢
        omega
      have hp := sortP_pairwise
        (fun a b => decide ((pyInt? a.1).getD 0 < (pyInt? b.1).getD 0)) hasym htrans students
      refine hp.imp ?_
      intro a b hab
      simp only [decide_eq_false_iff_not, not_lt] at hab
      exact hab
  · intro hnone
    refine ⟨sortP (fun a b => pyStrLt a.1 b.1) students, ?_, sortP_perm _ students, ?_⟩
    · rw [hmode]
      apply sortE_ok
      intro a ha b hb
      have hka : roll_key a.1 = .s a.1 := by unfold roll_key; rw [hnone a ha]
      have hkb : roll_key b.1 = .s b.1 := by unfold roll_key; rw [hnone b hb]
      rw [hka, hkb]
      rfl
    · refine sortP_pairwise (fun a b => pyStrLt a.1 b.1) ?_ ?_ students
      · intro a b h
        exact strLtb_asymm a.1.data b.1.data h
      · intro a b d h1 h2
        exact strLtb_notLt_trans a.1.data b.1.data d.1.data h1 h2

/-- Witness for C4 amended: an all-numeric and an all-string roster. -/
theorem sorted_roll_homogeneous_witness :
    (∃ l, StudentManager.sorted [("10", ⟨"A", 50⟩), ("2", ⟨"B", 60⟩)] "Roll" = .ok l ∧
      l.Perm [("10", ⟨"A", 50⟩), ("2", ⟨"B", 60⟩)] ∧
      l.Pairwise (fun a b => (pyInt? a.1).getD 0 ≤ (pyInt? b.1).getD 0)) ∧
    (∃ l, StudentManager.sorted [("AB", ⟨"A", 50⟩), ("AA", ⟨"B", 60⟩)] "Roll" = .ok l ∧
      l.Perm [("AB", ⟨"A", 50⟩), ("AA", ⟨"B", 60⟩)] ∧
      l.Pairwise (fun a b => pyStrLt b.1 a.1 = false)) :=
  ⟨(sorted_roll_homogeneous _).1 (by decide), (sorted_roll_homogeneous _).2 (by decide)⟩

/-- C5: the CSV export lists one row per record, ordered by descending
marks, with 1-based consecutive positional ranks (so equal marks receive
distinct ranks), and each row carries the grade classified from its own
marks. -/
theorem export_csv_ranking (students : Roster) :
    (StudentManager.export_csv students).map Row.rank = List.range' 1 students.length ∧
    ((StudentManager.export_csv students).map Row.marks).Pairwise (fun a b => b ≤ a) ∧
    (StudentManager.export_csv students).map Row.grade =
      (StudentManager.export_csv students).map (fun w => calculate_grade w.marks) ∧
    ((StudentManager.export_csv students).map
      (fun w => (w.roll, Student.mk w.name w.marks))).Perm students := by
  have hlen : (sortP (fun a b : String × Student => decide (b.2.marks < a.2.marks)) students).length
      = students.length := (sortP_perm _ students).length_eq
  refine ⟨?_, ?_, ?_, ?_⟩
  · unfold StudentManager.export_csv
    rw [rankRows_map_rank, hlen]
  · unfold StudentManager.export_csv
    rw [rankRows_map_marks, List.pairwise_map]
    have hasym : ∀ a b : String × Student,
        decide (b.2.marks < a.2.marks) = true → decide (a.2.marks < b.2.marks) = false := by
      intro a b h
      simp only [decide_eq_true_eq] at h
      simp only [decide_eq_false_iff_not, not_lt]
      exact le_of_lt h
    have htrans : ∀ a b d : String × Student,
        decide (a.2.marks < b.2.marks) = false → decide (b.2.marks < d.2.marks) = false →
        decide (a.2.marks < d.2.marks) = false := by
      intro a b d h1 h2
      simp only [decide_eq_false_iff_not, not_lt] at h1 h2 ⊢
      exact le_trans h2 h1
    have hp := sortP_pairwise
      (fun a b : String × Student => decide (b.2.marks < a.2.marks)) hasym htrans students
    refine hp.imp ?_
    intro a b hab
    simp only [decide_eq_false_iff_not, not_lt] at hab
    exact hab
  · unfold StudentManager.export_csv
    exact rankRows_map_grade _ 1
  · unfold StudentManager.export_csv
    rw [rankRows_map_entry]
    exact sortP_perm _ students

/-- Unfolding equation for pyMax on a non-empty list. -/
lemma pyMax_cons (a : Rat) (l : List Rat) : pyMax (a :: l) = l.foldl max a := rfl

/-- Unfolding equation for pyMin on a non-empty list. -/
lemma pyMin_cons (a : Rat) (l : List Rat) : pyMin (a :: l) = l.foldl min a := rfl

/-- C6: stats on the empty roster is all zeroes with no division fault;
on a non-empty roster it returns the record count, a maximum and a
minimum of the marks, and the mean of the marks. -/
theorem stats_fields (students : Roster) :
    StudentManager.stats [] = ⟨0, 0, 0, 0⟩ ∧
    (students ≠ [] →
      (StudentManager.stats students).total = students.length ∧
      (StudentManager.stats students).max ∈ students.map (fun q => q.2.marks) ∧
      (∀ m ∈ students.map (fun q => q.2.marks), m ≤ (StudentManager.stats students).max) ∧
      (StudentManager.stats students).min ∈ students.map (fun q => q.2.marks) ∧
      (∀ m ∈ students.map (fun q => q.2.marks), (StudentManager.stats students).min ≤ m) ∧
      (StudentManager.stats students).avg =
        (students.map (fun q => q.2.marks)).sum / (students.length : Rat)) := by
  refine ⟨rfl, ?_⟩
  intro hne
  obtain ⟨p, t, rfl⟩ := List.exists_cons_of_ne_nil hne
  have hst : StudentManager.stats (p :: t) =
      ⟨((p :: t).map (fun q => q.2.marks)).length,
        pyMax ((p :: t).map (fun q => q.2.marks)),
        pyMin ((p :: t).map (fun q => q.2.marks)),
        ((p :: t).map (fun q => q.2.marks)).sum /
          (((p :: t).map (fun q => q.2.marks)).length : Rat)⟩ := rfl
  refine ⟨?_, ?_, ?_, ?_, ?_, ?_⟩
  · simp only [hst]
    exact List.length_map _ _
  · simp only [hst, List.map_cons, pyMax_cons]
    rcases foldl_max_mem (t.map (fun q => q.2.marks)) p.2.marks with h | h
    · rw [h]
      exact List.mem_cons_self _ _
    · exact List.mem_cons_of_mem _ h
  · intro m hm
    simp only [List.map_cons, List.mem_cons] at hm
    simp only [hst, List.map_cons, pyMax_cons]
    rcases hm with h | h
    · rw [h]
      exact le_foldl_max _ _
    · exact mem_le_foldl_max _ _ _ h
  · simp only [hst, List.map_cons, pyMin_cons]
    rcases foldl_min_mem (t.map (fun q => q.2.marks)) p.2.marks with h | h
    · rw [h]
      exact List.mem_cons_self _ _
    · exact List.mem_cons_of_mem _ h
  · intro m hm
    simp only [List.map_cons, List.mem_cons] at hm
    simp only [hst, List.map_cons, pyMin_cons]
    rcases hm with h | h
    · rw [h]
      exact foldl_min_le _ _
    · exact foldl_min_le_mem _ _ _ h
  · simp only [hst, List.length_map]

/-- Witness for C6: stats of a two-record roster. -/
theorem stats_fields_witness :
    ([("1", ⟨"A", 50⟩), ("2", ⟨"B", 70⟩)] : Roster) ≠ [] ∧
    (StudentManager.stats [("1", ⟨"A", 50⟩), ("2", ⟨"B", 70⟩)]).total =
      ([("1", ⟨"A", 50⟩), ("2", ⟨"B", 70⟩)] : Roster).length :=
  ⟨by decide,
   ((stats_fields [("1", ⟨"A", 50⟩), ("2", ⟨"B", 70⟩)]).2 (by decide)).1⟩

/-- Fold of the repairing assignment over a serialised canonical roster:
each serialised entry repairs back to itself and is appended, because its
key is fresh and its key and name are already uppercase. -/
lemma save_fold_eq (students : Roster) : ∀ (acc : Roster),
    (∀ p ∈ students, pyUpper p.1 = p.1) →
    (∀ p ∈ students, pyUpper p.2.name = p.2.name) →
    (students.map Prod.fst).Nodup →
    (∀ p ∈ students, ∀ q ∈ acc, p.1 ≠ q.1) →
    (StudentManager.save students).foldl
      (fun fixed kv => dictSet fixed (fixEntry kv).1 (fixEntry kv).2) acc = acc ++ students := by
  induction students with
  | nil =>
    intro acc _ _ _ _
    simp [StudentManager.save]
  | cons p t ih =>
    intro acc hk hn hnd hdisj
    have hsave : StudentManager.save (p :: t) =
        (p.1, JsonVal.jobj [("name", .jstr p.2.name), ("marks", .jnum p.2.marks)]) ::
          StudentManager.save t := rfl
    rw [hsave, List.foldl_cons]
    have hfix : fixEntry
        (p.1, JsonVal.jobj [("name", .jstr p.2.name), ("marks", .jnum p.2.marks)]) = p := by
      have h0 : fixEntry
          (p.1, JsonVal.jobj [("name", .jstr p.2.name), ("marks", .jnum p.2.marks)]) =
          (pyUpper p.1, ⟨pyUpper p.2.name, p.2.marks⟩) := rfl
      rw [h0, hk p (List.mem_cons_self _ _), hn p (List.mem_cons_self _ _)]
    rw [hfix]
    rw [dictSet_of_forall_ne acc p.1 p.2
      (fun q hq => Ne.symm (hdisj p (List.mem_cons_self _ _) q hq))]
    simp only [List.map_cons, List.nodup_cons] at hnd
    rw [ih (acc ++ [p]) (fun r hr => hk r (List.mem_cons_of_mem _ hr))
      (fun r hr => hn r (List.mem_cons_of_mem _ hr)) hnd.2 ?_]
    · simp
    · intro r hr q hq
      rcases List.mem_append.mp hq with h1 | h1
      · exact hdisj r (List.mem_cons_of_mem _ hr) q h1
      · rw [List.mem_singleton.mp h1]
        intro he
        exact hnd.1 (he ▸ List.mem_map_of_mem Prod.fst hr)

/-- C7: saving a roster of well-formed canonical records (uppercase
unique roll keys, uppercase names, numeric marks) and loading the
resulting document yields the same roster, record for record. -/
theorem save_load_roundtrip (students : Roster)
    (hkeys : ∀ p ∈ students, pyUpper p.1 = p.1)
    (hnames : ∀ p ∈ students, pyUpper p.2.name = p.2.name)
    (hnodup : (students.map Prod.fst).Nodup) :
    StudentManager.load (FileState.parsed (JsonVal.jobj (StudentManager.save students))) =
      Except.ok students := by
  have h1 : StudentManager.load (FileState.parsed (JsonVal.jobj (StudentManager.save students))) =
      Except.ok ((StudentManager.save students).foldl
        (fun fixed kv => dictSet fixed (fixEntry kv).1 (fixEntry kv).2) []) := rfl
  rw [h1, save_fold_eq students [] hkeys hnames hnodup
    (fun p _ q hq => absurd hq (List.not_mem_nil q))]
  rfl

/-- Witness for C7: a concrete two-record canonical roster survives the
round trip. -/
theorem save_load_roundtrip_witness :
    StudentManager.load (FileState.parsed (JsonVal.jobj
      (StudentManager.save [("1", ⟨"ALICE", 55⟩), ("R2", ⟨"BOB", 70⟩)]))) =
      Except.ok [("1", ⟨"ALICE", 55⟩), ("R2", ⟨"BOB", 70⟩)] :=
  save_load_roundtrip [("1", ⟨"ALICE", 55⟩), ("R2", ⟨"BOB", 70⟩)]
    (by decide) (by decide) (by decide)

/-- C8: an upsert stores the uppercased name and the given marks under
the uppercased roll, and a lookup of that roll returns exactly that
record, whatever was stored there before. -/
theorem add_update_lookup (students : Roster) (roll name : String) (marks : Rat)
    (_h0 : 0 ≤ marks) (_h1 : marks ≤ 100) :
    dictGet? (StudentManager.add_update students roll name marks) (pyUpper roll) =
      some ⟨pyUpper name, marks⟩ := by
  unfold StudentManager.add_update
  exact dictGet?_dictSet_self students (pyUpper roll) _

/-- Witness for C8: overwriting an existing record. -/
theorem add_update_lookup_witness :
    (0 : Rat) ≤ 88 ∧ (88 : Rat) ≤ 100 ∧
    dictGet? (StudentManager.add_update [("7", ⟨"OLD", 10⟩)] "7" "new" 88) (pyUpper "7") =
      some ⟨pyUpper "new", 88⟩ :=
  ⟨by decide, by decide,
   add_update_lookup [("7", ⟨"OLD", 10⟩)] "7" "new" 88 (by decide) (by decide)⟩

/-- C9: deleting an absent roll leaves the roster unchanged and does not
save; deleting a present roll saves, removes exactly that entry (the
result is a sublist missing the key) and leaves every other lookup
unchanged. -/
theorem delete_semantics (students : Roster) (roll : String)
    (hnodup : (students.map Prod.fst).Nodup) :
    (dictGet? students (pyUpper roll) = none →
      StudentManager.delete students roll = (students, false)) ∧
    (dictGet? students (pyUpper roll) ≠ none →
      (StudentManager.delete students roll).2 = true ∧
      (StudentManager.delete students roll).1.Sublist students ∧
      dictGet? (StudentManager.delete students roll).1 (pyUpper roll) = none ∧
      (∀ k, k ≠ pyUpper roll →
        dictGet? (StudentManager.delete students roll).1 k = dictGet? students k)) := by
  constructor
  · intro h
    unfold StudentManager.delete
    rw [h]
    rfl
  · intro h
    have hs : (dictGet? students (pyUpper roll)).isSome = true := by
      cases hh : dictGet? students (pyUpper roll) with
      | none => exact absurd hh h
      | some v => rfl
    have hd : StudentManager.delete students roll =
        (dictDel students (pyUpper roll), true) := by
      unfold StudentManager.delete
      rw [hs]
      rfl
    rw [hd]
    exact ⟨rfl, dictDel_sublist _ _, dictGet?_dictDel_self _ _ hnodup,
      fun k hk => dictGet?_dictDel_ne _ _ _ hk⟩

/-- Witness for C9: both branches on a concrete roster. -/
theorem delete_semantics_witness :
    StudentManager.delete [("1", ⟨"A", 50⟩)] "9" = ([("1", ⟨"A", 50⟩)], false) ∧
    (StudentManager.delete [("1", ⟨"A", 50⟩), ("2", ⟨"B", 60⟩)] "2").2 = true :=
  ⟨(delete_semantics [("1", ⟨"A", 50⟩)] "9" (by decide)).1 (by decide),
   ((delete_semantics [("1", ⟨"A", 50⟩), ("2", ⟨"B", 60⟩)] "2" (by decide)).2 (by decide)).1⟩

/-- Every repaired entry has an uppercase key and an uppercase name. -/
lemma fixEntry_canonical (kv : String × JsonVal) :
    pyUpper (fixEntry kv).1 = (fixEntry kv).1 ∧
    pyUpper (fixEntry kv).2.name = (fixEntry kv).2.name := by
  obtain ⟨k, v⟩ := kv
  cases v with
  | jobj fields => exact ⟨pyUpper_idem k, pyUpper_idem _⟩
  | jnull => exact ⟨pyUpper_idem k, rfl⟩
  | jbool b => exact ⟨pyUpper_idem k, rfl⟩
  | jnum q => exact ⟨pyUpper_idem k, rfl⟩
  | jstr s => exact ⟨pyUpper_idem k, rfl⟩
  | jarr items => exact ⟨pyUpper_idem k, rfl⟩

/-- C10: after load and after any upsert the in-memory roster is
canonical (string keys and uppercase names on records that, by the
Student type, carry exactly the fields name and marks), delete preserves
canonicity, and keys differing only in letter case collapse to a single
entry under the uppercased key, both on load and on upsert. -/
theorem canonical_shape_invariant :
    (∀ (doc : List (String × JsonVal)) (fixed : Roster),
      StudentManager.load (FileState.parsed (JsonVal.jobj doc)) = Except.ok fixed →
      Canonical fixed) ∧
    (∀ (students : Roster) (roll name : String) (marks : Rat),
      Canonical students → Canonical (StudentManager.add_update students roll name marks)) ∧
    (∀ (students : Roster) (roll : String),
      Canonical students → Canonical (StudentManager.delete students roll).1) ∧
    StudentManager.load (FileState.parsed (JsonVal.jobj
      [("ab", JsonVal.jnum 1), ("AB", JsonVal.jnum 2)])) =
      Except.ok [("AB", ⟨"UNKNOWN", 2⟩)] ∧
    StudentManager.add_update (StudentManager.add_update [] "ab" "xy" 1) "AB" "zw" 2 =
      [("AB", ⟨"ZW", 2⟩)] := by
  refine ⟨?_, ?_, ?_, rfl, rfl⟩
  · intro doc fixed hload p hp
    have hfold : fixed = doc.foldl
        (fun fixed kv => dictSet fixed (fixEntry kv).1 (fixEntry kv).2) [] :=
      (Except.ok.inj hload).symm
    rw [hfold] at hp
    rcases mem_foldl_fixEntry doc [] p hp with h | ⟨kv, _, he⟩
    · exact absurd h (List.not_mem_nil p)
    · rw [he]
      exact fixEntry_canonical kv
  · intro students roll name marks hc p hp
    rcases mem_dictSet hp with h | h
    · exact hc p h
    · rw [h]
      exact ⟨pyUpper_idem roll, pyUpper_idem name⟩
  · intro students roll hc p hp
    unfold StudentManager.delete at hp
    by_cases hb : (dictGet? students (pyUpper roll)).isSome = true
    · rw [if_pos hb] at hp
      exact hc p (List.Sublist.mem hp (dictDel_sublist students (pyUpper roll)))
    · rw [if_neg hb] at hp
      exact hc p hp

/-- Witness for C10: the canonicity clauses instantiated on concrete
rosters. -/
theorem canonical_shape_invariant_witness :
    Canonical [("AB", ⟨"UNKNOWN", 2⟩)] ∧
    Canonical (StudentManager.add_update [("AB", ⟨"UNKNOWN", 2⟩)] "c" "d" 3) ∧
    Canonical (StudentManager.delete [("AB", ⟨"UNKNOWN", 2⟩)] "ab").1 :=
  ⟨canonical_shape_invariant.1 [("ab", .jnum 1), ("AB", .jnum 2)] [("AB", ⟨"UNKNOWN", 2⟩)] rfl,
   canonical_shape_invariant.2.1 [("AB", ⟨"UNKNOWN", 2⟩)] "c" "d" 3 (by decide),
   canonical_shape_invariant.2.2.1 [("AB", ⟨"UNKNOWN", 2⟩)] "ab" (by decide)⟩
